import Mathlib

/-!
# Verification of the compression-service core

A shallow embedding, over `List Nat` byte sequences (each element a byte
value `< 256`; the definitions never depend on the bound), of the three
subsystems of the repository:

* the streaming packet decoder and encoder (`src/packet.rs`),
* the run-length compressor (`src/compress.rs`),
* the GetStats response body construction (`src/main.rs`).

Each definition is translated from the corresponding Rust source; doc
comments name the source location. Stateful code becomes explicit state
passing, machine-integer casts become explicit `% 2 ^ w`, and the `f32`
arithmetic of the stats ratio byte is modelled by exact rationals rounded
to the binary32 grid (round to nearest, ties to even).
-/

namespace Stry

/-- Request codes parsed by the decoder (`src/message.rs`, `RequestCode`).
`compress` carries its payload bytes. -/
inductive RequestCode where
  | ping
  | getStats
  | resetStats
  | compress (payload : List Nat)
deriving DecidableEq, Repr

/-- Status codes used for responses and protocol errors
(`src/message.rs`, `StatusCode`). `ioError` carries an opaque kind. -/
inductive StatusCode where
  | ok (payload : List Nat)
  | unknownError
  | messageTooLarge
  | unsupportedRequestType
  | emptyBuffer
  | nonEmptyBuffer
  | nonAscii
  | nonAlphabetic
  | nonLowerCase
  | ioError (kind : Nat)
deriving DecidableEq, Repr

/-- Decoder states (`src/packet.rs`, `DecodeState`). The `length` value
propagates from `payloadLen` through `requestCode` to `payload`. -/
inductive DecodeState where
  | magicHeader
  | payloadLen
  | requestCode (length : Nat)
  | payload (length : Nat)
deriving DecidableEq, Repr

/-- One call of `PacketCodec::decode` returns `Ok(None)`, `Ok(Some(item))`
or `Err(status)`. -/
inductive DecodeResult where
  | needMore
  | item (r : RequestCode)
  | err (e : StatusCode)
deriving DecidableEq, Repr

/-- Result of one non-recursive execution step of the `decode` body: either
a tail `self.decode(src)` call with updated state and buffer, or a return. -/
inductive StepResult where
  | more («to» : DecodeState) (buf : List Nat)
  | done («to» : DecodeState) (buf : List Nat) (res : DecodeResult)
deriving DecidableEq, Repr

/-- The magic header bytes `"STRY"` (`src/packet.rs`, `MAGIC_HEADER`). -/
def magicBytes : List Nat := [83, 84, 82, 89]

/-- One step of `PacketCodec::decode` (`src/packet.rs` lines 46-141): the
body of the `match self.state` with each recursive `self.decode(src)` call
rendered as `StepResult.more`, and each `return` as `StepResult.done`.
`max` is the codec's `max_payload_len`. `get_u16` reads two bytes
big-endian and consumes them. -/
def decodeStep (max : Nat) (s : DecodeState) (b : List Nat) : StepResult :=
  match s with
  | .magicHeader =>
    if b.length < 4 then .done .magicHeader b .needMore
    else if b.take 4 = magicBytes then .more .payloadLen (b.drop 4)
    else .more .magicHeader (b.drop 1)
  | .payloadLen =>
    match b with
    | b0 :: b1 :: rest =>
      let length := b0 * 256 + b1
      if length > max then .done .magicHeader rest (.err .messageTooLarge)
      else .more (.requestCode length) rest
    | _ => .done .payloadLen b .needMore
  | .requestCode length =>
    match b with
    | c0 :: c1 :: rest =>
      let code := c0 * 256 + c1
      if code = 1 then
        if length = 0 then .done .magicHeader rest (.item .ping)
        else .done .magicHeader rest (.err .nonEmptyBuffer)
      else if code = 2 then
        if length = 0 then .done .magicHeader rest (.item .getStats)
        else .done .magicHeader rest (.err .nonEmptyBuffer)
      else if code = 3 then
        if length = 0 then .done .magicHeader rest (.item .resetStats)
        else .done .magicHeader rest (.err .nonEmptyBuffer)
      else if code = 4 then
        if length = 0 then .done .magicHeader rest (.err .emptyBuffer)
        else .more (.payload length) rest
      else .done .magicHeader rest (.err .unsupportedRequestType)
    | _ => .done (.requestCode length) b .needMore
  | .payload length =>
    if b.length < length then .done (.payload length) b .needMore
    else .done .magicHeader (b.drop length) (.item (.compress (b.take length)))

/-- Every internal recursive call of `decode` strictly consumes buffered
bytes: a `more` step always shrinks the buffer. -/
theorem decodeStep_more_length {max : Nat} {s s' : DecodeState}
    {b b' : List Nat} (h : decodeStep max s b = .more s' b') :
    b'.length < b.length := by
  cases s with
  | magicHeader =>
    by_cases h4 : b.length < 4
    · simp [decodeStep, h4] at h
    · by_cases hm : b.take 4 = magicBytes
      · simp [decodeStep, h4, hm] at h
        obtain ⟨-, rfl⟩ := h
        simp [List.length_drop]
        omega
      · simp [decodeStep, h4, hm] at h
        obtain ⟨-, rfl⟩ := h
        simp [List.length_drop]
        omega
  | payloadLen =>
    match b with
    | [] => simp [decodeStep] at h
    | [b0] => simp [decodeStep] at h
    | b0 :: b1 :: rest =>
      by_cases hl : b0 * 256 + b1 > max
      · simp [decodeStep, hl] at h
      · simp [decodeStep, hl] at h
        obtain ⟨-, rfl⟩ := h
        simp
        omega
  | requestCode length =>
    match b with
    | [] => simp [decodeStep] at h
    | [c0] => simp [decodeStep] at h
    | c0 :: c1 :: rest =>
      simp only [decodeStep] at h
      repeat' split at h
      all_goals try (injection h)
      all_goals subst_vars
      all_goals simp
      all_goals omega
  | payload length =>
    by_cases hl : b.length < length <;> simp [decodeStep, hl] at h

/-- `PacketCodec::decode` (`src/packet.rs` lines 46-141) as iteration of
`decodeStep`: returns the final decoder state, the unconsumed buffer, and
the outcome of the call. Termination is by `decodeStep_more_length`. -/
def decode (max : Nat) (s : DecodeState) (b : List Nat) :
    DecodeState × List Nat × DecodeResult :=
  match h : decodeStep max s b with
  | .more s' b' => decode max s' b'
  | .done s' b' r => (s', b', r)
termination_by b.length
decreasing_by exact decodeStep_more_length h

/-- Unfolding `decode` at a recursive (`more`) step. -/
theorem decode_step_more {max : Nat} {s s' : DecodeState} {b b' : List Nat}
    (h : decodeStep max s b = .more s' b') :
    decode max s b = decode max s' b' := by
  rw [decode]
  split
  all_goals rename_i heq
  · rw [h] at heq
    cases heq
    rfl
  · rw [h] at heq
    cases heq

/-- Unfolding `decode` at a returning (`done`) step. -/
theorem decode_step_done {max : Nat} {s s' : DecodeState} {b b' : List Nat}
    {r : DecodeResult} (h : decodeStep max s b = .done s' b' r) :
    decode max s b = (s', b', r) := by
  rw [decode]
  split
  all_goals rename_i heq
  · rw [h] at heq
    cases heq
  · rw [h] at heq
    cases heq
    rfl

/-- A `needMore` return (`Ok(None)` in the source) leaves state and buffer
exactly as they were: the decoder waits without consuming. -/
theorem decodeStep_needMore {max : Nat} {s s' : DecodeState} {b b' : List Nat}
    (h : decodeStep max s b = .done s' b' .needMore) : s' = s ∧ b' = b := by
  cases s with
  | magicHeader =>
    by_cases h4 : b.length < 4
    · simp [decodeStep, h4] at h
      simp_all
    · by_cases hm : b.take 4 = magicBytes <;> simp [decodeStep, h4, hm] at h
  | payloadLen =>
    match b with
    | [] => simp [decodeStep] at h; simp_all
    | [b0] => simp [decodeStep] at h; simp_all
    | b0 :: b1 :: rest =>
      by_cases hl : b0 * 256 + b1 > max <;> simp [decodeStep, hl] at h
  | requestCode length =>
    match b with
    | [] => simp [decodeStep] at h; simp_all
    | [c0] => simp [decodeStep] at h; simp_all
    | c0 :: c1 :: rest =>
      simp only [decodeStep] at h
      repeat' split at h
      all_goals cases h
  | payload length =>
    by_cases hl : b.length < length
    · simp [decodeStep, hl] at h
      simp_all
    · simp [decodeStep, hl] at h

/-- Measure on decoder configurations used to show that draining the buffer
terminates: twice the buffer length plus a state rank. -/
def rank : DecodeState → Nat
  | .payload _ => 1
  | _ => 0

theorem rank_le_one (s : DecodeState) : rank s ≤ 1 := by
  cases s <;> simp [rank]

theorem decodeStep_more_measure {max : Nat} {s s' : DecodeState}
    {b b' : List Nat} (h : decodeStep max s b = .more s' b') :
    2 * b'.length + rank s' < 2 * b.length + rank s := by
  have h1 := decodeStep_more_length h
  have h2 := rank_le_one s'
  omega

/-- A step that returns an item or an error either strictly consumes bytes,
or is the degenerate `payload 0` configuration whose rank drops. -/
theorem decodeStep_done_emit_measure {max : Nat} {s s' : DecodeState}
    {b b' : List Nat} {r : DecodeResult} (h : decodeStep max s b = .done s' b' r)
    (hr : r ≠ .needMore) : 2 * b'.length + rank s' < 2 * b.length + rank s := by
  cases s with
  | magicHeader =>
    by_cases h4 : b.length < 4
    · simp [decodeStep, h4] at h
      exact absurd h.2.2.symm hr
    · by_cases hm : b.take 4 = magicBytes <;> simp [decodeStep, h4, hm] at h
  | payloadLen =>
    match b with
    | [] => simp [decodeStep] at h; exact absurd h.2.2.symm hr
    | [b0] => simp [decodeStep] at h; exact absurd h.2.2.symm hr
    | b0 :: b1 :: rest =>
      by_cases hl : b0 * 256 + b1 > max <;> simp [decodeStep, hl] at h
      obtain ⟨rfl, rfl, -⟩ := h
      simp [rank]
      omega
  | requestCode length =>
    match b with
    | [] => simp [decodeStep] at h; exact absurd h.2.2.symm hr
    | [c0] => simp [decodeStep] at h; exact absurd h.2.2.symm hr
    | c0 :: c1 :: rest =>
      simp only [decodeStep] at h
      repeat' split at h
      all_goals cases h
      all_goals simp [rank]
      all_goals omega
  | payload length =>
    by_cases hl : b.length < length
    · simp [decodeStep, hl] at h
      exact absurd h.2.2.symm hr
    · simp [decodeStep, hl] at h
      obtain ⟨rfl, rfl, -⟩ := h
      simp [rank, List.length_drop]
      omega

/-- A full `decode` call that emits an item or an error strictly decreases
the drain measure. -/
theorem decode_emit_measure {max : Nat} {s s' : DecodeState} {b b' : List Nat}
    {r : DecodeResult} (h : decode max s b = (s', b', r)) (hr : r ≠ .needMore) :
    2 * b'.length + rank s' < 2 * b.length + rank s := by
  suffices H : ∀ n (b : List Nat), b.length ≤ n → ∀ (s s' : DecodeState)
      (b' : List Nat) (r : DecodeResult), decode max s b = (s', b', r) →
      r ≠ .needMore → 2 * b'.length + rank s' < 2 * b.length + rank s by
    exact H b.length b le_rfl s s' b' r h hr
  intro n
  induction n using Nat.strong_induction_on with
  | _ n IH =>
    intro b hb s s' b' r h hr
    cases hstep : decodeStep max s b with
    | more s1 b1 =>
      have hlt := decodeStep_more_length hstep
      rw [decode_step_more hstep] at h
      have h1 := IH b1.length (by omega) b1 le_rfl s1 s' b' r h hr
      have h2 := decodeStep_more_measure hstep
      omega
    | done s1 b1 r1 =>
      rw [decode_step_done hstep] at h
      cases h
      exact decodeStep_done_emit_measure hstep hr

deriving instance DecidableEq for Except

/-- Result of draining the decoder on a buffer: final state, unconsumed
bytes, and the sequence of emitted outcomes (requests or error statuses). -/
structure DrainResult where
  state : DecodeState
  rest : List Nat
  out : List (Except StatusCode RequestCode)
deriving Repr

/-- Drive `decode` repeatedly on the buffer until it answers `needMore`,
collecting the emitted outcomes in order. This is how the framed stream
driver uses `PacketCodec::decode`: decode again on the remaining bytes
after every emitted item or error, and stop to read more bytes only when
the decoder asks for more. -/
def runAll (max : Nat) (s : DecodeState) (b : List Nat) : DrainResult :=
  match h : decode max s b with
  | (s', b', .needMore) => ⟨s', b', []⟩
  | (s', b', .item r) =>
    let d := runAll max s' b'
    ⟨d.state, d.rest, .ok r :: d.out⟩
  | (s', b', .err e) =>
    let d := runAll max s' b'
    ⟨d.state, d.rest, .error e :: d.out⟩
termination_by 2 * b.length + rank s
decreasing_by
  · exact decode_emit_measure h (by simp)
  · exact decode_emit_measure h (by simp)

/-- A recursive step is insensitive to bytes appended beyond the part of
the buffer it inspects. -/
theorem decodeStep_append_more {max : Nat} {s s' : DecodeState}
    {b b' e : List Nat} (h : decodeStep max s b = .more s' b') :
    decodeStep max s (b ++ e) = .more s' (b' ++ e) := by
  cases s with
  | magicHeader =>
    by_cases h4 : b.length < 4
    · simp [decodeStep, h4] at h
    · have h4' : ¬(b ++ e).length < 4 := by simp; omega
      by_cases hm : b.take 4 = magicBytes
      · have hm' : (b ++ e).take 4 = magicBytes := by
          rw [List.take_append_of_le_length (by omega)]; exact hm
        simp only [decodeStep, h4, hm, h4', hm', if_true, if_false] at h ⊢
        simp at h
        obtain ⟨rfl, rfl⟩ := h
        simp
        rw [List.drop_append_of_le_length (by omega)]
      · have hm' : ¬(b ++ e).take 4 = magicBytes := by
          rw [List.take_append_of_le_length (by omega)]; exact hm
        simp only [decodeStep, h4, hm, h4', hm', if_true, if_false] at h ⊢
        simp at h
        obtain ⟨rfl, rfl⟩ := h
        simp
        match b, h4 with
        | b0 :: brest, _ => simp
  | payloadLen =>
    match b with
    | [] => simp [decodeStep] at h
    | [b0] => simp [decodeStep] at h
    | b0 :: b1 :: rest =>
      by_cases hl : b0 * 256 + b1 > max
      · simp [decodeStep, hl] at h
      · simp [decodeStep, hl] at h ⊢
        obtain ⟨rfl, rfl⟩ := h
        exact ⟨rfl, rfl⟩
  | requestCode length =>
    match b with
    | [] => simp [decodeStep] at h
    | [c0] => simp [decodeStep] at h
    | c0 :: c1 :: rest =>
      simp only [decodeStep, List.cons_append] at h ⊢
      repeat' split at h
      all_goals try (injection h)
      all_goals subst_vars
      all_goals simp_all [decodeStep]
  | payload length =>
    by_cases hl : b.length < length <;> simp [decodeStep, hl] at h

/-- An emitting step is insensitive to appended bytes: the same outcome is
produced and the appended bytes survive in the unconsumed remainder. -/
theorem decodeStep_append_done {max : Nat} {s s' : DecodeState}
    {b b' e : List Nat} {r : DecodeResult}
    (h : decodeStep max s b = .done s' b' r) (hr : r ≠ .needMore) :
    decodeStep max s (b ++ e) = .done s' (b' ++ e) r := by
  cases s with
  | magicHeader =>
    by_cases h4 : b.length < 4
    · simp [decodeStep, h4] at h
      exact absurd h.2.2.symm hr
    · by_cases hm : b.take 4 = magicBytes <;> simp [decodeStep, h4, hm] at h
  | payloadLen =>
    match b with
    | [] => simp [decodeStep] at h; exact absurd h.2.2.symm hr
    | [b0] => simp [decodeStep] at h; exact absurd h.2.2.symm hr
    | b0 :: b1 :: rest =>
      by_cases hl : b0 * 256 + b1 > max
      · simp [decodeStep, hl] at h ⊢
        obtain ⟨rfl, rfl, rfl⟩ := h
        exact ⟨rfl, rfl, rfl⟩
      · simp [decodeStep, hl] at h
  | requestCode length =>
    match b with
    | [] => simp [decodeStep] at h; exact absurd h.2.2.symm hr
    | [c0] => simp [decodeStep] at h; exact absurd h.2.2.symm hr
    | c0 :: c1 :: rest =>
      simp only [decodeStep, List.cons_append] at h ⊢
      repeat' split at h
      all_goals try (injection h)
      all_goals subst_vars
      all_goals simp_all [decodeStep]
  | payload length =>
    by_cases hl : b.length < length
    · simp [decodeStep, hl] at h
      exact absurd h.2.2.symm hr
    · have hl' : ¬(b ++ e).length < length := by simp; omega
      simp only [decodeStep, hl, hl', if_false] at h ⊢
      injection h with h1 h2 h3
      subst_vars
      rw [List.take_append_of_le_length (by omega),
        List.drop_append_of_le_length (by omega)]

/-- If a `decode` call asks for more bytes, calling it instead on the
buffer extended by `e` behaves like resuming from where it stopped. -/
theorem decode_append_needMore {max : Nat} {s s' : DecodeState}
    {b b' e : List Nat} (h : decode max s b = (s', b', .needMore)) :
    decode max s (b ++ e) = decode max s' (b' ++ e) := by
  suffices H : ∀ n (b : List Nat), b.length ≤ n → ∀ (s s' : DecodeState)
      (b' : List Nat), decode max s b = (s', b', .needMore) →
      decode max s (b ++ e) = decode max s' (b' ++ e) by
    exact H b.length b le_rfl s s' b' h
  intro n
  induction n using Nat.strong_induction_on with
  | _ n IH =>
    intro b hb s s' b' h
    cases hstep : decodeStep max s b with
    | more s1 b1 =>
      have hlt := decodeStep_more_length hstep
      rw [decode_step_more hstep] at h
      rw [decode_step_more (decodeStep_append_more hstep)]
      exact IH b1.length (by omega) b1 le_rfl s1 s' b' h
    | done s1 b1 r1 =>
      rw [decode_step_done hstep] at h
      cases h
      obtain ⟨rfl, rfl⟩ := decodeStep_needMore hstep
      rfl

/-- If a `decode` call emits an item or an error, it emits the same outcome
on any extension of the buffer, consuming the same bytes. -/
theorem decode_append_emit {max : Nat} {s s' : DecodeState}
    {b b' e : List Nat} {r : DecodeResult} (h : decode max s b = (s', b', r))
    (hr : r ≠ .needMore) : decode max s (b ++ e) = (s', b' ++ e, r) := by
  suffices H : ∀ n (b : List Nat), b.length ≤ n → ∀ (s s' : DecodeState)
      (b' : List Nat) (r : DecodeResult), decode max s b = (s', b', r) →
      r ≠ .needMore → decode max s (b ++ e) = (s', b' ++ e, r) by
    exact H b.length b le_rfl s s' b' r h hr
  intro n
  induction n using Nat.strong_induction_on with
  | _ n IH =>
    intro b hb s s' b' r h hr
    cases hstep : decodeStep max s b with
    | more s1 b1 =>
      have hlt := decodeStep_more_length hstep
      rw [decode_step_more hstep] at h
      rw [decode_step_more (decodeStep_append_more hstep)]
      exact IH b1.length (by omega) b1 le_rfl s1 s' b' r h hr
    | done s1 b1 r1 =>
      rw [decode_step_done hstep] at h
      cases h
      exact decode_step_done (decodeStep_append_done hstep hr)

/-- Unfolding `runAll` when decoding asks for more bytes. -/
theorem runAll_needMore {max : Nat} {s s' : DecodeState} {b b' : List Nat}
    (h : decode max s b = (s', b', .needMore)) : runAll max s b = ⟨s', b', []⟩ := by
  rw [runAll]
  split
  all_goals rename_i heq
  all_goals rw [h] at heq
  · cases heq
    rfl
  · cases heq
  · cases heq

/-- Unfolding `runAll` when decoding emits a parsed request. -/
theorem runAll_item {max : Nat} {s s' : DecodeState} {b b' : List Nat}
    {r : RequestCode} (h : decode max s b = (s', b', .item r)) :
    runAll max s b = ⟨(runAll max s' b').state, (runAll max s' b').rest,
      .ok r :: (runAll max s' b').out⟩ := by
  rw [runAll]
  split
  all_goals rename_i heq
  all_goals rw [h] at heq
  · cases heq
  · cases heq
    rfl
  · cases heq

/-- Unfolding `runAll` when decoding emits a protocol error. -/
theorem runAll_err {max : Nat} {s s' : DecodeState} {b b' : List Nat}
    {e : StatusCode} (h : decode max s b = (s', b', .err e)) :
    runAll max s b = ⟨(runAll max s' b').state, (runAll max s' b').rest,
      .error e :: (runAll max s' b').out⟩ := by
  rw [runAll]
  split
  all_goals rename_i heq
  all_goals rw [h] at heq
  · cases heq
  · cases heq
  · cases heq
    rfl

/-- `runAll` only looks at the buffer through `decode`. -/
theorem runAll_eq_of_decode_eq {max : Nat} {s t : DecodeState}
    {b c : List Nat} (h : decode max s b = decode max t c) :
    runAll max s b = runAll max t c := by
  rcases hdc : decode max t c with ⟨s', b', r⟩
  have h1 : decode max s b = (s', b', r) := h.trans hdc
  cases r with
  | needMore => rw [runAll_needMore h1, runAll_needMore hdc]
  | item r => rw [runAll_item h1, runAll_item hdc]
  | err e => rw [runAll_err h1, runAll_err hdc]

/-- A configuration on which `decode` waits keeps waiting: the `needMore`
return leaves the very configuration it was called on. -/
theorem decode_needMore_fix {max : Nat} {s s' : DecodeState} {b b' : List Nat}
    (h : decode max s b = (s', b', .needMore)) :
    decode max s' b' = (s', b', .needMore) := by
  suffices H : ∀ n (b : List Nat), b.length ≤ n → ∀ (s s' : DecodeState)
      (b' : List Nat), decode max s b = (s', b', .needMore) →
      decode max s' b' = (s', b', .needMore) by
    exact H b.length b le_rfl s s' b' h
  intro n
  induction n using Nat.strong_induction_on with
  | _ n IH =>
    intro b hb s s' b' h
    cases hstep : decodeStep max s b with
    | more s1 b1 =>
      have hlt := decodeStep_more_length hstep
      rw [decode_step_more hstep] at h
      exact IH b1.length (by omega) b1 le_rfl s1 s' b' h
    | done s1 b1 r1 =>
      rw [decode_step_done hstep] at h
      cases h
      obtain ⟨rfl, rfl⟩ := decodeStep_needMore hstep
      exact decode_step_done hstep

/-- The configuration `runAll` stops in is drained: running again emits
nothing and changes nothing. -/
theorem runAll_drained (max : Nat) (s : DecodeState) (b : List Nat) :
    runAll max (runAll max s b).state (runAll max s b).rest
      = ⟨(runAll max s b).state, (runAll max s b).rest, []⟩ := by
  suffices H : ∀ n (b : List Nat) (s : DecodeState), 2 * b.length + rank s ≤ n →
      runAll max (runAll max s b).state (runAll max s b).rest
        = ⟨(runAll max s b).state, (runAll max s b).rest, []⟩ by
    exact H (2 * b.length + rank s) b s le_rfl
  intro n
  induction n using Nat.strong_induction_on with
  | _ n IH =>
    intro b s hb
    rcases hd : decode max s b with ⟨s', b', r⟩
    cases r with
    | needMore =>
      rw [runAll_needMore hd]
      exact runAll_needMore (decode_needMore_fix hd)
    | item r =>
      have hm := decode_emit_measure hd (by simp)
      rw [runAll_item hd]
      exact IH (2 * b'.length + rank s') (by omega) b' s' le_rfl
    | err e =>
      have hm := decode_emit_measure hd (by simp)
      rw [runAll_err hd]
      exact IH (2 * b'.length + rank s') (by omega) b' s' le_rfl

/-- Draining an extended buffer equals draining the original buffer and
then draining on from its stopping configuration with the extension:
outcomes concatenate. -/
theorem runAll_append (max : Nat) (s : DecodeState) (b e : List Nat) :
    runAll max s (b ++ e)
      = ⟨(runAll max (runAll max s b).state ((runAll max s b).rest ++ e)).state,
         (runAll max (runAll max s b).state ((runAll max s b).rest ++ e)).rest,
         (runAll max s b).out
           ++ (runAll max (runAll max s b).state ((runAll max s b).rest ++ e)).out⟩ := by
  suffices H : ∀ n (b : List Nat) (s : DecodeState), 2 * b.length + rank s ≤ n →
      runAll max s (b ++ e)
        = ⟨(runAll max (runAll max s b).state ((runAll max s b).rest ++ e)).state,
           (runAll max (runAll max s b).state ((runAll max s b).rest ++ e)).rest,
           (runAll max s b).out
             ++ (runAll max (runAll max s b).state ((runAll max s b).rest ++ e)).out⟩ by
    exact H (2 * b.length + rank s) b s le_rfl
  intro n
  induction n using Nat.strong_induction_on with
  | _ n IH =>
    intro b s hb
    rcases hd : decode max s b with ⟨s', b', r⟩
    cases r with
    | needMore =>
      rw [runAll_needMore hd]
      rw [runAll_eq_of_decode_eq (decode_append_needMore hd)]
      simp
    | item r =>
      have hm := decode_emit_measure hd (by simp)
      have hd' := decode_append_emit hd (r := .item r) (by simp) (e := e)
      rw [runAll_item hd, runAll_item hd']
      rw [IH (2 * b'.length + rank s') (by omega) b' s' le_rfl]
      simp
    | err er =>
      have hm := decode_emit_measure hd (by simp)
      have hd' := decode_append_emit hd (r := .err er) (by simp) (e := e)
      rw [runAll_err hd, runAll_err hd']
      rw [IH (2 * b'.length + rank s') (by omega) b' s' le_rfl]
      simp

/-- Feed a list of chunks to the decoder one at a time: each chunk is
appended to the unconsumed leftover bytes, the decoder is drained, and the
emitted outcomes are collected in order. -/
def feedChunks (max : Nat) (s : DecodeState) (buf : List Nat) :
    List (List Nat) → List (Except StatusCode RequestCode)
  | [] => []
  | c :: cs =>
    (runAll max s (buf ++ c)).out
      ++ feedChunks max (runAll max s (buf ++ c)).state
          (runAll max s (buf ++ c)).rest cs

theorem feedChunks_join {max : Nat} : ∀ (cs : List (List Nat))
    (s : DecodeState) (buf : List Nat), runAll max s buf = ⟨s, buf, []⟩ →
    feedChunks max s buf cs = (runAll max s (buf ++ cs.flatten)).out := by
  intro cs
  induction cs with
  | nil =>
    intro s buf hdr
    simp [feedChunks, List.flatten, hdr]
  | cons c cs IH =>
    intro s buf hdr
    have hdrained := runAll_drained max s (buf ++ c)
    rw [feedChunks, IH _ _ hdrained]
    have : buf ++ (c :: cs).flatten = (buf ++ c) ++ cs.flatten := by
      simp [List.flatten]
    rw [this, runAll_append max s (buf ++ c) cs.flatten]

/-- C3: For every byte sequence and every way of splitting it into chunks,
repeatedly feeding the chunks to the decoder and collecting all emitted
outcomes (parsed requests and protocol-error statuses, in order) yields the
same outcome sequence as feeding the whole byte sequence at once: the
emitted sequence is independent of chunk boundaries. -/
theorem c3_chunking_independence (max : Nat) (chunks : List (List Nat)) :
    feedChunks max .magicHeader [] chunks
      = (runAll max .magicHeader chunks.flatten).out := by
  have h0 : runAll max DecodeState.magicHeader [] = ⟨.magicHeader, [], []⟩ :=
    runAll_needMore (decode_step_done (by simp [decodeStep]))
  simpa using feedChunks_join chunks .magicHeader [] h0

/-- C4: With at least 2 buffered bytes in state `requestCode L`: a request
code in {1,2,3} with `L = 0` emits `Ping`/`GetStats`/`ResetStats`; a code
in {1,2,3} with `L > 0` emits `NonEmptyBuffer` without consuming the `L`
declared payload bytes (only the two code bytes are consumed, `rest` is
left untouched); code 4 with `L = 0` emits `EmptyBuffer`; any code outside
{1,2,3,4} emits `UnsupportedRequestType`; in each of these cases the state
is reset to `magicHeader`. -/
theorem c4_request_code_dispatch (max L c0 c1 : Nat) (rest : List Nat) :
    (c0 * 256 + c1 = 1 → decode max (.requestCode L) (c0 :: c1 :: rest)
      = (.magicHeader, rest, if L = 0 then .item .ping else .err .nonEmptyBuffer))
  ∧ (c0 * 256 + c1 = 2 → decode max (.requestCode L) (c0 :: c1 :: rest)
      = (.magicHeader, rest, if L = 0 then .item .getStats else .err .nonEmptyBuffer))
  ∧ (c0 * 256 + c1 = 3 → decode max (.requestCode L) (c0 :: c1 :: rest)
      = (.magicHeader, rest, if L = 0 then .item .resetStats else .err .nonEmptyBuffer))
  ∧ (c0 * 256 + c1 = 4 → L = 0 → decode max (.requestCode L) (c0 :: c1 :: rest)
      = (.magicHeader, rest, .err .emptyBuffer))
  ∧ (c0 * 256 + c1 ≠ 1 → c0 * 256 + c1 ≠ 2 → c0 * 256 + c1 ≠ 3 →
      c0 * 256 + c1 ≠ 4 → decode max (.requestCode L) (c0 :: c1 :: rest)
      = (.magicHeader, rest, .err .unsupportedRequestType)) := by
  refine ⟨?_, ?_, ?_, ?_, ?_⟩
  · intro h
    by_cases hL : L = 0
    · rw [if_pos hL]
      exact decode_step_done (by simp [decodeStep, h, hL])
    · rw [if_neg hL]
      exact decode_step_done (by simp [decodeStep, h, hL])
  · intro h
    by_cases hL : L = 0
    · rw [if_pos hL]
      exact decode_step_done (by simp [decodeStep, h, hL])
    · rw [if_neg hL]
      exact decode_step_done (by simp [decodeStep, h, hL])
  · intro h
    by_cases hL : L = 0
    · rw [if_pos hL]
      exact decode_step_done (by simp [decodeStep, h, hL])
    · rw [if_neg hL]
      exact decode_step_done (by simp [decodeStep, h, hL])
  · intro h hL
    exact decode_step_done (by simp [decodeStep, h, hL])
  · intro h1 h2 h3 h4
    exact decode_step_done (by simp [decodeStep, h1, h2, h3, h4])

/-- Witness for C4 at concrete inputs: a ping, a rejected non-empty
get-stats, a rejected empty compress, and an unsupported code 9. -/
theorem c4_request_code_dispatch_witness :
    decode 16384 (.requestCode 0) [0, 1, 9] = (.magicHeader, [9], .item .ping)
  ∧ decode 16384 (.requestCode 5) [0, 2, 9] = (.magicHeader, [9], .err .nonEmptyBuffer)
  ∧ decode 16384 (.requestCode 0) [0, 4] = (.magicHeader, [], .err .emptyBuffer)
  ∧ decode 16384 (.requestCode 7) [0, 9, 1] = (.magicHeader, [1], .err .unsupportedRequestType) := by
  refine ⟨?_, ?_, ?_, ?_⟩
  · have h := (c4_request_code_dispatch 16384 0 0 1 [9]).1 (by norm_num)
    simpa using h
  · have h := (c4_request_code_dispatch 16384 5 0 2 [9]).2.1 (by norm_num)
    simpa using h
  · exact (c4_request_code_dispatch 16384 0 0 4 []).2.2.2.1 (by norm_num) rfl
  · exact (c4_request_code_dispatch 16384 7 0 9 [1]).2.2.2.2
      (by norm_num) (by norm_num) (by norm_num) (by norm_num)

/-- C5: In state `magicHeader` with at least 4 buffered bytes whose first
four bytes are not the magic, the decoder consumes exactly one byte, stays
in `magicHeader`, and retries on the remainder; the resynchronization step
itself is a recursive `more` step and emits neither a request nor an error
status. -/
theorem c5_resync_advances_one (max : Nat) (b : List Nat)
    (h4 : 4 ≤ b.length) (hm : b.take 4 ≠ magicBytes) :
    decodeStep max .magicHeader b = .more .magicHeader (b.drop 1)
  ∧ decode max .magicHeader b = decode max .magicHeader (b.drop 1) := by
  have hstep : decodeStep max .magicHeader b = .more .magicHeader (b.drop 1) := by
    have hlen : ¬b.length < 4 := by omega
    simp [decodeStep, hlen, hm]
  exact ⟨hstep, decode_step_more hstep⟩

/-- Witness for C5 on a concrete 4-byte non-magic buffer. -/
theorem c5_resync_advances_one_witness :
    decodeStep 16384 .magicHeader [0, 0, 0, 0] = .more .magicHeader [0, 0, 0]
  ∧ decode 16384 .magicHeader [0, 0, 0, 0] = decode 16384 .magicHeader [0, 0, 0] := by
  have h := c5_resync_advances_one 16384 [0, 0, 0, 0] (by norm_num) (by decide)
  simpa using h

/-- C10: every internal self-recursive call of `decode` (after a magic
match or a resynchronization step, after consuming the 2 length bytes, and
after consuming the 2 code bytes) strictly consumes at least one buffered
byte, so the recursion is well-founded: no input can make `decode` loop
forever. -/
theorem c10_decode_recursion_terminates {max : Nat} {s s' : DecodeState}
    {b b' : List Nat} (h : decodeStep max s b = .more s' b') :
    b'.length < b.length :=
  decodeStep_more_length h

/-- Witness for C10 at a concrete resynchronization step. -/
theorem c10_decode_recursion_terminates_witness :
    ([0, 0, 0] : List Nat).length < ([0, 0, 0, 0] : List Nat).length :=
  c10_decode_recursion_terminates
    (show decodeStep 16384 .magicHeader [0, 0, 0, 0]
        = .more .magicHeader [0, 0, 0] by decide)

/-- Decimal digits of `n`, most significant first, as ASCII byte values:
the bytes of `count.to_string()` in `Compressor::write_label`
(`src/compress.rs` line 30). -/
def decDigits (n : Nat) : List Nat :=
  if n < 10 then [n + 48]
  else decDigits (n / 10) ++ [n % 10 + 48]
termination_by n
decreasing_by exact Nat.div_lt_self (by omega) (by norm_num)

/-- `Compressor::write_label` (`src/compress.rs` lines 29-49) as the list
of bytes it writes: the decimal label followed by the letter if that is
strictly shorter than the run, otherwise the run's letters themselves.
The in-place write never overtakes the read cursor (the output of a run is
never longer than the run), so the function view is faithful. -/
def writeLabel (letter count : Nat) : List Nat :=
  let label := decDigits count
  if label.length + 1 < count then label ++ [letter]
  else List.replicate count letter

/-- The per-byte input check of `Compressor::compress`
(`src/compress.rs` lines 67-76): `is_ascii`, then `is_ascii_alphabetic`,
then `is_ascii_lowercase`, each failure with its status code. -/
def validateByte (b : Nat) : Option StatusCode :=
  if ¬b < 128 then some .nonAscii
  else if ¬((65 ≤ b ∧ b ≤ 90) ∨ (97 ≤ b ∧ b ≤ 122)) then some .nonAlphabetic
  else if ¬(97 ≤ b ∧ b ≤ 122) then some .nonLowerCase
  else none

/-- The loop of `Compressor::compress` (`src/compress.rs` lines 64-87)
from iteration `i ≥ 1` on, carrying the current `working` letter and run
`count`; on a run change the finished run's label is written before the
rest, and the final `write_label` after the loop is the `[]` case. -/
def compressLoop (working count : Nat) : List Nat → Except StatusCode (List Nat)
  | [] => .ok (writeLabel working count)
  | b :: bs =>
    match validateByte b with
    | some e => .error e
    | none =>
      if b = working then compressLoop working (count + 1) bs
      else Except.map (fun out => writeLabel working count ++ out) (compressLoop b 1 bs)

/-- `Compressor::compress` without the stats update (`src/compress.rs`
lines 54-94): empty input fails, otherwise the loop starts with
`working = buffer[0]`, `count = 0`, and its first iteration validates
`buffer[0]` and raises `count` to 1. -/
def compressBytes (buffer : List Nat) : Except StatusCode (List Nat) :=
  match buffer with
  | [] => .error .emptyBuffer
  | b0 :: rest =>
    match validateByte b0 with
    | some e => .error e
    | none => compressLoop b0 1 rest

/-- The compressor's `(before, after)` byte counters
(`src/compress.rs` lines 5-8). -/
structure Compressor where
  before : Nat
  after : Nat
deriving DecidableEq, Repr

/-- `Compressor::compress` with its stats update: only a fully valid
buffer updates `before` by the input length and `after` by the output
length (`src/compress.rs` lines 89-91); every error path returns before
the update. -/
def Compressor.compress (c : Compressor) (buffer : List Nat) :
    Compressor × Except StatusCode (List Nat) :=
  match compressBytes buffer with
  | .error e => (c, .error e)
  | .ok out => (⟨c.before + buffer.length, c.after + out.length⟩, .ok out)

/-- Maximal-run decomposition of a byte list, as `(letter, length)` pairs:
the run containing the current letter `c` with `n` occurrences so far,
followed by the runs of the rest. -/
def runsAux (c n : Nat) : List Nat → List (Nat × Nat)
  | [] => [(c, n)]
  | b :: bs => if b = c then runsAux c (n + 1) bs else (c, n) :: runsAux b 1 bs

/-- Maximal runs of identical letters of a byte list. -/
def runs : List Nat → List (Nat × Nat)
  | [] => []
  | b :: bs => runsAux b 1 bs

theorem validateByte_lower {b : Nat} (h1 : 97 ≤ b) (h2 : b ≤ 122) :
    validateByte b = none := by
  unfold validateByte
  rw [if_neg (show ¬¬b < 128 by omega),
    if_neg (show ¬¬((65 ≤ b ∧ b ≤ 90) ∨ (97 ≤ b ∧ b ≤ 122)) by omega),
    if_neg (show ¬¬(97 ≤ b ∧ b ≤ 122) by omega)]

/-- On valid bytes the compress loop emits, run by run, exactly the label
of each maximal run. -/
theorem compressLoop_runs : ∀ (bs : List Nat) (c n : Nat),
    (∀ b ∈ bs, 97 ≤ b ∧ b ≤ 122) →
    compressLoop c n bs
      = .ok (((runsAux c n bs).map fun p => writeLabel p.1 p.2).flatten) := by
  intro bs
  induction bs with
  | nil =>
    intro c n hv
    simp [compressLoop, runsAux]
  | cons b bs IH =>
    intro c n hv
    have hb := hv b (List.mem_cons_self b bs)
    have hrest : ∀ x ∈ bs, 97 ≤ x ∧ x ≤ 122 :=
      fun x hx => hv x (List.mem_cons_of_mem b hx)
    rw [compressLoop, validateByte_lower hb.1 hb.2]
    by_cases hbc : b = c
    · simp only [hbc, if_true, runsAux]
      exact IH c (n + 1) hrest
    · simp only [hbc, if_false, runsAux]
      rw [IH b 1 hrest]
      simp [Except.map]

/-- Every run the decomposition produces has positive length. -/
theorem runsAux_pos : ∀ (bs : List Nat) (c n : Nat), 1 ≤ n →
    ∀ p ∈ runsAux c n bs, 1 ≤ p.2 := by
  intro bs
  induction bs with
  | nil =>
    intro c n hn p hp
    simp [runsAux] at hp
    subst hp
    exact hn
  | cons b bs IH =>
    intro c n hn p hp
    rw [runsAux] at hp
    by_cases hbc : b = c
    · rw [if_pos hbc] at hp
      exact IH c (n + 1) (by omega) p hp
    · rw [if_neg hbc] at hp
      rcases List.mem_cons.mp hp with h | h
      · subst h
        exact hn
      · exact IH b 1 le_rfl p h

/-- For `n ≥ 1`, the source's decimal label agrees with Mathlib's decimal
digits of `n`, most significant first, shifted to ASCII. -/
theorem decDigits_eq_digits : ∀ n : Nat, 1 ≤ n →
    decDigits n = ((Nat.digits 10 n).reverse.map (· + 48)) := by
  intro n
  induction n using Nat.strong_induction_on with
  | _ n IH =>
    intro hn
    by_cases h10 : n < 10
    · rw [decDigits, if_pos h10]
      rw [Nat.digits_def' (by norm_num) (by omega)]
      have : n / 10 = 0 := by omega
      simp [this, Nat.mod_eq_of_lt h10]
    · rw [decDigits, if_neg h10]
      rw [Nat.digits_def' (by norm_num) (by omega)]
      have hdiv : 1 ≤ n / 10 := by omega
      rw [IH (n / 10) (Nat.div_lt_self (by omega) (by norm_num)) hdiv]
      simp

/-- The run label written by the source, stated with the claim's digit
count: labeled form iff `digitCount n + 1 < n`, expanded form otherwise
(ties, where `digitCount n + 1 = n`, take the expanded form). -/
theorem writeLabel_eq (c n : Nat) (hn : 1 ≤ n) :
    writeLabel c n
      = if (Nat.digits 10 n).length + 1 < n
        then (Nat.digits 10 n).reverse.map (· + 48) ++ [c]
        else List.replicate n c := by
  have hd := decDigits_eq_digits n hn
  have hlen : (decDigits n).length = (Nat.digits 10 n).length := by
    rw [hd]
    simp
  rw [writeLabel, hlen, hd]

/-- C1: For every non-empty input of lowercase ASCII letters, compress
succeeds and its output is the concatenation, over the input's maximal
runs of identical letters, of the shorter of the two forms for each run of
letter `c` of length `n`: the labeled form (the decimal ASCII digits of `n`
followed by `c`) when `digitCount n + 1 < n`, and the `n` literal copies of
`c` otherwise, so that ties (`digitCount n + 1 = n`, e.g. `n = 2`) choose
the expanded form. -/
theorem c1_compress_shorter_of_two_forms (buffer : List Nat)
    (hne : buffer ≠ []) (hlow : ∀ b ∈ buffer, 97 ≤ b ∧ b ≤ 122) :
    compressBytes buffer
      = .ok (((runs buffer).map fun p =>
          if (Nat.digits 10 p.2).length + 1 < p.2
          then (Nat.digits 10 p.2).reverse.map (· + 48) ++ [p.1]
          else List.replicate p.2 p.1).flatten) := by
  match buffer, hne with
  | b0 :: rest, _ =>
    have hb0 := hlow b0 (List.mem_cons_self _ _)
    have hrest : ∀ x ∈ rest, 97 ≤ x ∧ x ≤ 122 :=
      fun x hx => hlow x (List.mem_cons_of_mem _ hx)
    have hmap : ∀ p ∈ runsAux b0 1 rest,
        writeLabel p.1 p.2
          = if (Nat.digits 10 p.2).length + 1 < p.2
            then (Nat.digits 10 p.2).reverse.map (· + 48) ++ [p.1]
            else List.replicate p.2 p.1 :=
      fun p hp => writeLabel_eq p.1 p.2 (runsAux_pos rest b0 1 le_rfl p hp)
    rw [runs, ← List.map_congr_left hmap, compressBytes,
      validateByte_lower hb0.1 hb0.2]
    exact compressLoop_runs rest b0 1 hrest

/-- Witness for C1 on `"aaab"`: the run `aaa` takes the labeled form `3a`,
the run `b` the expanded form. -/
theorem c1_compress_shorter_of_two_forms_witness :
    compressBytes [97, 97, 97, 98] = .ok [51, 97, 98] := by
  have h := c1_compress_shorter_of_two_forms [97, 97, 97, 98]
    (by simp) (by decide)
  rw [h]
  norm_num [runs, runsAux, Nat.digits_def']

/-- Modelled from the spec (claim C2 and §8.2): the decompressor is not
part of the source; it expands each maximal `<decimal digits><letter>`
group into that many copies of the letter and passes every other letter
through unchanged. `acc`/`hasDigits` carry the value and presence of the
pending digit group. -/
def decompressAux (acc : Nat) (hasDigits : Bool) : List Nat → List Nat
  | [] => []
  | b :: bs =>
    if 48 ≤ b ∧ b ≤ 57 then decompressAux (acc * 10 + (b - 48)) true bs
    else (if hasDigits then List.replicate acc b else [b]) ++ decompressAux 0 false bs

/-- Modelled from the spec: decompression of a full byte list. -/
def decompress (s : List Nat) : List Nat := decompressAux 0 false s

/-- Reading the decimal digits of `n` accumulates `n` onto the pending
digit group. -/
theorem decompressAux_decDigits : ∀ (n a : Nat) (h : Bool) (rest : List Nat),
    decompressAux a h (decDigits n ++ rest)
      = decompressAux (a * 10 ^ (decDigits n).length + n) true rest := by
  intro n
  induction n using Nat.strong_induction_on with
  | _ n IH =>
    intro a h rest
    by_cases h10 : n < 10
    · rw [decDigits, if_pos h10]
      have hd : 48 ≤ n + 48 ∧ n + 48 ≤ 57 := by omega
      simp only [List.cons_append, List.nil_append, decompressAux, hd, and_self,
        if_true, List.length_cons, List.length_nil]
      have : n + 48 - 48 = n := by omega
      rw [this]
      norm_num
    · rw [decDigits, if_neg h10, List.append_assoc, List.cons_append,
        List.nil_append]
      rw [IH (n / 10) (Nat.div_lt_self (by omega) (by norm_num))]
      have hd : 48 ≤ n % 10 + 48 ∧ n % 10 + 48 ≤ 57 := by omega
      simp only [decompressAux, hd, and_self, if_true]
      have h1 : n % 10 + 48 - 48 = n % 10 := by omega
      have h2 : (decDigits (n / 10) ++ [n % 10 + 48]).length
          = (decDigits (n / 10)).length + 1 := by simp
      rw [h1, h2]
      have h3 : (a * 10 ^ ((decDigits (n / 10)).length + 1) + n)
          = (a * 10 ^ (decDigits (n / 10)).length + n / 10) * 10 + n % 10 := by
        rw [pow_succ]
        have := Nat.div_add_mod n 10
        ring_nf
        omega
      rw [h3]

/-- Non-digit bytes pass through decompression one at a time. -/
theorem decompressAux_replicate : ∀ (n c : Nat) (rest : List Nat),
    ¬(48 ≤ c ∧ c ≤ 57) →
    decompressAux 0 false (List.replicate n c ++ rest)
      = List.replicate n c ++ decompressAux 0 false rest := by
  intro n
  induction n with
  | zero => intro c rest hc; simp
  | succ n IH =>
    intro c rest hc
    rw [List.replicate_succ, List.cons_append, decompressAux, if_neg hc]
    simp only [if_false, Bool.false_eq_true]
    rw [IH c rest hc]
    simp

/-- Decompressing one emitted run label recovers the run and continues. -/
theorem decompressAux_writeLabel (c n : Nat) (rest : List Nat)
    (hc1 : 97 ≤ c) (hc2 : c ≤ 122) :
    decompressAux 0 false (writeLabel c n ++ rest)
      = List.replicate n c ++ decompressAux 0 false rest := by
  have hcd : ¬(48 ≤ c ∧ c ≤ 57) := by omega
  rw [writeLabel]
  by_cases hfm : (decDigits n).length + 1 < n
  · simp only [hfm, if_true]
    rw [List.append_assoc, decompressAux_decDigits, List.cons_append,
      List.nil_append, decompressAux, if_neg hcd]
    simp
  · simp only [hfm, if_false]
    exact decompressAux_replicate n c rest hcd

/-- Every letter of the run decomposition is a letter of the input. -/
theorem runsAux_letters : ∀ (bs : List Nat) (c n : Nat),
    97 ≤ c ∧ c ≤ 122 → (∀ b ∈ bs, 97 ≤ b ∧ b ≤ 122) →
    ∀ p ∈ runsAux c n bs, 97 ≤ p.1 ∧ p.1 ≤ 122 := by
  intro bs
  induction bs with
  | nil =>
    intro c n hc hv p hp
    simp [runsAux] at hp
    subst hp
    exact hc
  | cons b bs IH =>
    intro c n hc hv p hp
    have hb := hv b (List.mem_cons_self _ _)
    have hrest : ∀ x ∈ bs, 97 ≤ x ∧ x ≤ 122 :=
      fun x hx => hv x (List.mem_cons_of_mem _ hx)
    rw [runsAux] at hp
    by_cases hbc : b = c
    · rw [if_pos hbc] at hp
      exact IH c (n + 1) hc hrest p hp
    · rw [if_neg hbc] at hp
      rcases List.mem_cons.mp hp with h | h
      · subst h
        exact hc
      · exact IH b 1 hb hrest p h

/-- Decompressing the concatenated run labels expands every run. -/
theorem decompress_flatten_labels : ∀ (l : List (Nat × Nat)),
    (∀ p ∈ l, 97 ≤ p.1 ∧ p.1 ≤ 122) →
    decompressAux 0 false ((l.map fun p => writeLabel p.1 p.2).flatten)
      = (l.map fun p => List.replicate p.2 p.1).flatten := by
  intro l
  induction l with
  | nil => intro hv; simp [decompressAux]
  | cons p l IH =>
    intro hv
    have hp := hv p (List.mem_cons_self _ _)
    have hrest : ∀ q ∈ l, 97 ≤ q.1 ∧ q.1 ≤ 122 :=
      fun q hq => hv q (List.mem_cons_of_mem _ hq)
    simp only [List.map_cons, List.flatten_cons]
    rw [decompressAux_writeLabel p.1 p.2 _ hp.1 hp.2, IH hrest]

/-- Expanding the run decomposition recovers the input. -/
theorem runs_expand : ∀ (bs : List Nat) (c n : Nat),
    ((runsAux c n bs).map fun p => List.replicate p.2 p.1).flatten
      = List.replicate n c ++ bs := by
  intro bs
  induction bs with
  | nil => intro c n; simp [runsAux]
  | cons b bs IH =>
    intro c n
    rw [runsAux]
    by_cases hbc : b = c
    · rw [if_pos hbc, IH c (n + 1), hbc]
      rw [List.replicate_succ' n c]
      simp
    · rw [if_neg hbc]
      simp only [List.map_cons, List.flatten_cons]
      rw [IH b 1]
      simp

/-- C2: For every non-empty input of lowercase ASCII letters, decompressing
the output of compress — expanding each maximal `<decimal digits><letter>`
group into that many copies of the letter and passing every other letter
through unchanged — yields exactly the original input. -/
theorem c2_decompress_compress (buffer out : List Nat) (hne : buffer ≠ [])
    (hlow : ∀ b ∈ buffer, 97 ≤ b ∧ b ≤ 122)
    (h : compressBytes buffer = .ok out) : decompress out = buffer := by
  match buffer, hne with
  | b0 :: rest, _ =>
    have hb0 := hlow b0 (List.mem_cons_self _ _)
    have hrest : ∀ x ∈ rest, 97 ≤ x ∧ x ≤ 122 :=
      fun x hx => hlow x (List.mem_cons_of_mem _ hx)
    rw [compressBytes, validateByte_lower hb0.1 hb0.2,
      compressLoop_runs rest b0 1 hrest] at h
    cases h
    rw [decompress,
      decompress_flatten_labels _ (runsAux_letters rest b0 1 hb0 hrest),
      runs_expand rest b0 1]
    simp

/-- Witness for C2 on `"aaab"`, compressed to `"3ab"`. -/
theorem c2_decompress_compress_witness :
    decompress [51, 97, 98] = [97, 97, 97, 98] := by
  have d3 : decDigits 3 = [51] := by rw [decDigits]; norm_num
  have d1 : decDigits 1 = [49] := by rw [decDigits]; norm_num
  refine c2_decompress_compress [97, 97, 97, 98] [51, 97, 98]
    (by simp) (by decide) ?_
  rw [compressBytes, validateByte_lower (by norm_num) (by norm_num),
    compressLoop_runs _ _ _ (by decide)]
  norm_num [runsAux, writeLabel, d3, d1]

theorem exceptMap_error {α β : Type} {f : α → β} {x : Except StatusCode α}
    {e : StatusCode} : Except.map f x = .error e ↔ x = .error e := by
  cases x <;> simp [Except.map]

/-- The loop errors exactly at the first invalid byte, with that byte's
status code. -/
theorem compressLoop_error_iff : ∀ (bs : List Nat) (c n : Nat) (e : StatusCode),
    compressLoop c n bs = .error e ↔ bs.findSome? validateByte = some e := by
  intro bs
  induction bs with
  | nil =>
    intro c n e
    simp [compressLoop]
  | cons b bs IH =>
    intro c n e
    rw [compressLoop]
    cases hv : validateByte b with
    | some e' =>
      simp [List.findSome?_cons, hv]
    | none =>
      rw [List.findSome?_cons, hv]
      by_cases hbc : b = c
      · rw [if_pos hbc]
        exact IH c (n + 1) e
      · rw [if_neg hbc]
        exact exceptMap_error.trans (IH b 1 e)

/-- `compress` fails exactly on the empty buffer (with `emptyBuffer`) or at
the first invalid byte (with that byte's code). -/
theorem compressBytes_error_iff (buffer : List Nat) (e : StatusCode) :
    compressBytes buffer = .error e
      ↔ (buffer = [] ∧ e = .emptyBuffer)
        ∨ buffer.findSome? validateByte = some e := by
  cases buffer with
  | nil =>
    simp [compressBytes]
    constructor
    · intro h; exact h.symm
    · intro h; exact h.symm
  | cons b0 rest =>
    rw [compressBytes, List.findSome?_cons]
    cases hv : validateByte b0 with
    | some e' => simp
    | none =>
      simp only [List.cons_ne_nil, false_and, false_or]
      exact compressLoop_error_iff rest b0 1 e

/-- The second component of the stateful compress is exactly the result of
the pure byte transform. -/
theorem compress_snd (st : Compressor) (buffer : List Nat) :
    (st.compress buffer).2 = compressBytes buffer := by
  cases hc : compressBytes buffer <;> simp [Compressor.compress, hc]

/-- C9: compress fails exactly when the input is empty (`emptyBuffer`) or
contains an invalid byte, the first invalid byte determining the code
(`nonAscii` if the byte is ≥ 0x80, else `nonAlphabetic` if not an ASCII
letter, else `nonLowerCase`, which is what `validateByte` computes); on
every failure the before/after counters are unchanged and no output is
produced, and on every success `before` grows by exactly the input length
and `after` by exactly the output length. -/
theorem c9_compress_error_and_stats (st : Compressor) (buffer : List Nat) :
    (∀ e, ((st.compress buffer).2 = .error e
        ↔ (buffer = [] ∧ e = .emptyBuffer)
          ∨ buffer.findSome? validateByte = some e))
  ∧ (∀ e, (st.compress buffer).2 = .error e → (st.compress buffer).1 = st)
  ∧ (∀ out, (st.compress buffer).2 = .ok out →
      (st.compress buffer).1.before = st.before + buffer.length
        ∧ (st.compress buffer).1.after = st.after + out.length) := by
  refine ⟨?_, ?_, ?_⟩
  · intro e
    rw [compress_snd]
    exact compressBytes_error_iff buffer e
  · intro e he
    rw [compress_snd] at he
    simp [Compressor.compress, he]
  · intro out hout
    rw [compress_snd] at hout
    simp [Compressor.compress, hout]

/-- Witness for C9: `"aB"` fails with `nonLowerCase` (first invalid byte is
`B`, ASCII alphabetic but not lowercase) and leaves the counters alone. -/
theorem c9_compress_error_and_stats_witness :
    ((Compressor.mk 3 2).compress [97, 66]).2 = .error .nonLowerCase
  ∧ ((Compressor.mk 3 2).compress [97, 66]).1 = Compressor.mk 3 2 := by
  have h := c9_compress_error_and_stats (Compressor.mk 3 2) [97, 66]
  have he : ((Compressor.mk 3 2).compress [97, 66]).2 = .error .nonLowerCase :=
    (h.1 .nonLowerCase).mpr (Or.inr (by decide))
  exact ⟨he, h.2.1 .nonLowerCase he⟩

/-- `BytesMut::put_u16` (big-endian) of a `u16` value `v < 65536`: appends
the two big-endian bytes. -/
def putU16 (dst : List Nat) (v : Nat) : List Nat := dst ++ [v / 256, v % 256]

/-- `PacketCodec::encode` (`src/packet.rs` lines 147-183): magic header,
then the `payload_len as u16` truncating cast (modelled `% 65536`), then
the status code, then the payload for `Ok`. -/
def encode (item : StatusCode) (dst : List Nat) : List Nat :=
  let dst1 := dst ++ magicBytes
  let plp : Nat × Nat × Option (List Nat) :=
    match item with
    | .ok payload => (payload.length, 0, some payload)
    | .unknownError => (0, 1, none)
    | .messageTooLarge => (0, 2, none)
    | .unsupportedRequestType => (0, 3, none)
    | .emptyBuffer => (0, 33, none)
    | .nonEmptyBuffer => (0, 34, none)
    | .nonAscii => (0, 35, none)
    | .nonAlphabetic => (0, 36, none)
    | .nonLowerCase => (0, 37, none)
    | .ioError _ => (0, 1, none)
  let dst2 := putU16 dst1 (plp.1 % 65536)
  let dst3 := putU16 dst2 plp.2.1
  match plp.2.2 with
  | some payload => dst3 ++ payload
  | none => dst3

/-- The wire status code of the claim's table (`Ok = 0`, …,
`IoError = 1`). -/
def wireCode : StatusCode → Nat
  | .ok _ => 0
  | .unknownError => 1
  | .messageTooLarge => 2
  | .unsupportedRequestType => 3
  | .emptyBuffer => 33
  | .nonEmptyBuffer => 34
  | .nonAscii => 35
  | .nonAlphabetic => 36
  | .nonLowerCase => 37
  | .ioError _ => 1

/-- The payload carried on the wire: the payload for `Ok`, nothing
otherwise. -/
def wirePayload : StatusCode → List Nat
  | .ok payload => payload
  | _ => []

/-- Big-endian bytes of a 16-bit value. -/
def be16 (v : Nat) : List Nat := [v / 256, v % 256]

/-- The encoder's byte layout for `Ok(payload)`, for any payload. -/
theorem encode_ok_eq (p dst : List Nat) :
    encode (.ok p) dst
      = dst ++ magicBytes ++ be16 (p.length % 65536) ++ be16 0 ++ p := by
  simp [encode, putU16, be16]

/-- Counterexample to C8 as stated: for `Ok` of a payload of length
`2 ^ 16` the emitted `payload_len` field holds the bytes `[0, 0]`, value
`0`, not the payload length (the `as u16` cast truncates), while the claim
requires the field to equal `|payload| = 65536`; the byte count
`8 + |payload|` itself still holds. -/
theorem c8_encode_counterexample :
    (encode (.ok (List.replicate 65536 97)) []).take 8
        = [83, 84, 82, 89, 0, 0, 0, 0]
  ∧ (List.replicate 65536 (97 : Nat)).length = 65536
  ∧ (0 : Nat) * 256 + 0 ≠ 65536 := by
  have hlen : (List.replicate 65536 (97 : Nat)).length = 65536 :=
    List.length_replicate 65536 97
  refine ⟨?_, hlen, by norm_num⟩
  rw [encode_ok_eq, hlen]
  rw [show ([] : List Nat) ++ magicBytes ++ be16 (65536 % 65536) ++ be16 0
      = [83, 84, 82, 89, 0, 0, 0, 0] from by norm_num [magicBytes, be16]]
  rw [List.take_append_of_le_length (by norm_num)]
  decide

/-- C8 amended: for every status value `s`, `encode s` appends exactly
`8 + |payload|` bytes for `s = Ok(payload)` and exactly 8 bytes for every
non-Ok status: the 4-byte magic `STRY`, the big-endian u16 `payload_len`
equal to `|payload| mod 2 ^ 16` for `Ok` (the `as u16` cast truncates; it
equals `|payload|` whenever `|payload| < 2 ^ 16`) and 0 otherwise, the
big-endian u16 status code of the claim's table (`Ok = 0`,
`UnknownError = 1`, `MessageTooLarge = 2`, `UnsupportedRequestType = 3`,
`EmptyBuffer = 33`, `NonEmptyBuffer = 34`, `NonAscii = 35`,
`NonAlphabetic = 36`, `NonLowerCase = 37`, `IoError = 1`), followed by the
payload for `Ok`. -/
theorem c8_encode_layout (item : StatusCode) (dst : List Nat) :
    encode item dst
      = dst ++ magicBytes ++ be16 ((wirePayload item).length % 65536)
          ++ be16 (wireCode item) ++ wirePayload item
  ∧ (encode item dst).length = dst.length + 8 + (wirePayload item).length := by
  cases item <;>
    simp [encode, putU16, wireCode, wirePayload, be16, magicBytes] <;>
    omega

/-- Bit length of a natural number, structurally on a fuel argument so the
kernel can evaluate it; `bits n` is exact for every `n < 2 ^ 256`, far
beyond anything a `u64` byte counter can produce. -/
def bitsAux : Nat → Nat → Nat
  | 0, _ => 0
  | fuel + 1, n => if n = 0 then 0 else bitsAux fuel (n / 2) + 1

/-- Bit length: `2 ^ (bits n - 1) ≤ n < 2 ^ bits n` for `1 ≤ n < 2 ^ 256`. -/
def bits (n : Nat) : Nat := bitsAux 256 n

/-- A nonnegative rational as an unreduced fraction of naturals, the value
domain of the stats ratio computation (`usize` counters and their
quotients are never negative). -/
structure Frac where
  num : Nat
  den : Nat
deriving DecidableEq, Repr

/-- Whether `2 ^ c ≤ x`, by cross multiplication. -/
def twoPowLe (c : ℤ) (x : Frac) : Bool :=
  match c with
  | .ofNat k => decide (2 ^ k * x.den ≤ x.num)
  | .negSucc k => decide (x.den ≤ x.num * 2 ^ (k + 1))

/-- The binary exponent of a positive fraction: the greatest `e` with
`2 ^ e ≤ x` (exact while numerator and denominator are below `2 ^ 256`). -/
def binExpF (x : Frac) : ℤ :=
  let c : ℤ := (bits x.num : ℤ) - (bits x.den : ℤ)
  if twoPowLe c x then c else c - 1

/-- Round a nonnegative fraction to the nearest natural, ties to even. -/
def rheF (x : Frac) : Nat :=
  if 2 * (x.num % x.den) < x.den then x.num / x.den
  else if x.den < 2 * (x.num % x.den) then x.num / x.den + 1
  else if x.num / x.den % 2 = 0 then x.num / x.den else x.num / x.den + 1

/-- `x * 2 ^ k` on fractions. -/
def scalePow2 (x : Frac) (k : ℤ) : Frac :=
  match k with
  | .ofNat n => ⟨x.num * 2 ^ n, x.den⟩
  | .negSucc n => ⟨x.num, x.den * 2 ^ (n + 1)⟩

/-- The IEEE-754 binary32 value nearest to a nonnegative rational (round
to nearest, ties to even), as an exact fraction: the 24-bit significand
`rheF (x * 2 ^ (23 - e))` scaled back by `2 ^ (e - 23)`. This models Rust
`f32` results in the normal range, which covers every value the stats
ratio computation of `src/main.rs` can produce from `usize` counters (no
overflow, underflow, subnormal or NaN arises there). -/
def roundF32 (x : Frac) : Frac :=
  if x.num = 0 then ⟨0, 1⟩
  else scalePow2 ⟨rheF (scalePow2 x (23 - binExpF x)), 1⟩ (binExpF x - 23)

/-- `x as f32` for a `usize` counter. -/
def f32OfNat (n : Nat) : Frac := roundF32 ⟨n, 1⟩

/-- `f32` division: correctly rounded exact quotient. -/
def f32Div (a b : Frac) : Frac := roundF32 ⟨a.num * b.den, a.den * b.num⟩

/-- `f32` multiplication: correctly rounded exact product. -/
def f32Mul (a b : Frac) : Frac := roundF32 ⟨a.num * b.num, a.den * b.den⟩

/-- `percent as u8`: Rust's float-to-integer `as` cast saturates, here
truncation toward zero clamped to `0..=255` (the modelled values are
nonnegative). -/
def u8Sat (x : Frac) : Nat := min (x.num / x.den) 255

/-- The ratio byte of the GetStats response (`src/main.rs` lines 85-90):
`0.0` when `before == 0` (the source comment asks whether it should be
100), else `(after as f32) / (before as f32) * 100.0`, then `as u8`. -/
def percentByte (before after : Nat) : Nat :=
  if before = 0 then u8Sat ⟨0, 1⟩
  else u8Sat (f32Mul (f32Div (f32OfNat after) (f32OfNat before)) ⟨100, 1⟩)

/-- `BytesMut::put_u32` (big-endian) of a `u32` value `v < 2 ^ 32`:
appends the four big-endian bytes. -/
def putU32 (dst : List Nat) (v : Nat) : List Nat :=
  dst ++ [v / 16777216, v / 65536 % 256, v / 256 % 256, v % 256]

/-- The GetStats response body built in `src/main.rs` lines 72-94:
`put_u32((stats.received + received) as u32)`,
`put_u32(stats.sent as u32)`, `put_u8(percent as u8)`. The `as u32` casts
truncate, modelled `% 2 ^ 32`. -/
def getStatsBody (globalReceived localReceived sent before after : Nat) :
    List Nat :=
  let b1 := putU32 [] ((globalReceived + localReceived) % 4294967296)
  let b2 := putU32 b1 (sent % 4294967296)
  b2 ++ [percentByte before after]

/-- Big-endian bytes of a 32-bit value. -/
def be32 (v : Nat) : List Nat :=
  [v / 16777216 % 256, v / 65536 % 256, v / 256 % 256, v % 256]

/-- Counterexample to C6 as stated, in both of its numerical readings.
First, the received field truncates instead of saturating: with a total
received count of `2 ^ 32` the code emits bytes `[0, 0, 0, 0]`, where the
claimed saturation would emit `[255, 255, 255, 255]`. Second, the ratio
byte is not `floor((after / before) * 100)`: for `before = 2 ^ 26` and
`after = 33554431` the `f32` computation rounds `after` up to `2 ^ 25`
and yields ratio byte `50`, while the exact floor is `49`. -/
theorem c6_getstats_counterexample :
    (getStatsBody 4294967296 0 0 0 0).take 4 = [0, 0, 0, 0]
  ∧ ([0, 0, 0, 0] : List Nat) ≠ [255, 255, 255, 255]
  ∧ percentByte 67108864 33554431 = 50
  ∧ 33554431 * 100 / 67108864 = 49
  ∧ (49 : Nat) ≠ 50 := by
  refine ⟨by decide, by decide, by decide, by norm_num, by norm_num⟩

/-- C6 amended: for every GetStats request the response payload is exactly
9 bytes: bytes 0..3 are the total received count modulo `2 ^ 32` (the
`as u32` cast truncates rather than saturates) big-endian, bytes 4..7 the
total sent count modulo `2 ^ 32` big-endian, and byte 8 is the `u8`
saturating cast of the single-precision value
`(after as f32) / (before as f32) * 100.0` (which float rounding can push
one above the exact `floor((after / before) * 100)`), except that it
equals 0 when `before = 0` (never 100). -/
theorem c6_getstats_layout (g l s b a : Nat) :
    getStatsBody g l s b a
      = be32 ((g + l) % 4294967296) ++ be32 (s % 4294967296)
          ++ [percentByte b a]
  ∧ (getStatsBody g l s b a).length = 9
  ∧ (b = 0 → percentByte b a = 0) := by
  refine ⟨?_, ?_, ?_⟩
  · have h1 : (g + l) % 4294967296 / 16777216 % 256
        = (g + l) % 4294967296 / 16777216 := by omega
    have h2 : s % 4294967296 / 16777216 % 256
        = s % 4294967296 / 16777216 := by omega
    simp [getStatsBody, putU32, be32, h1, h2]
  · simp [getStatsBody, putU32]
  · intro hb
    simp [percentByte, hb, u8Sat]

/-- Witness for C6: concrete totals `13` received, `3` sent, `before = 0`,
giving ratio byte 0. -/
theorem c6_getstats_layout_witness :
    getStatsBody 5 8 3 0 7 = [0, 0, 0, 13, 0, 0, 0, 3, 0]
  ∧ percentByte 0 7 = 0 := by
  have h := c6_getstats_layout 5 8 3 0 7
  refine ⟨?_, h.2.2 rfl⟩
  rw [h.1, h.2.2 rfl]
  decide

/-- The decoder never grows the buffer: the unconsumed remainder is at
most the input. -/
theorem decode_length_le {max : Nat} (s : DecodeState) (b : List Nat) :
    (decode max s b).2.1.length ≤ b.length := by
  suffices H : ∀ n (b : List Nat), b.length ≤ n → ∀ s : DecodeState,
      (decode max s b).2.1.length ≤ b.length by
    exact H b.length b le_rfl s
  intro n
  induction n using Nat.strong_induction_on with
  | _ n IH =>
    intro b hb s
    cases hstep : decodeStep max s b with
    | more s1 b1 =>
      rw [decode_step_more hstep]
      have h1 := decodeStep_more_length hstep
      have h2 := IH b1.length (by omega) b1 le_rfl s1
      omega
    | done s1 b1 r1 =>
      rw [decode_step_done hstep]
      by_cases hr : r1 = .needMore
      · subst hr
        obtain ⟨-, rfl⟩ := decodeStep_needMore hstep
        simp
      · have hm := decodeStep_done_emit_measure hstep hr
        have h1 := rank_le_one s1
        have h2 := rank_le_one s
        simp only
        omega

/-- Modelled from the spec: `PacketCodec` in `src/packet.rs` holds only
`max_payload_len` and `state`, yet `src/main.rs` calls
`stream.codec().get_stats()` and `reset_stats()` — the `(received, sent)`
counter maintenance is code of the repository missing from `src/`. Per the
spec (§4.1 Stats accounting), every byte fed through the decoder,
including bytes discarded during resynchronization, counts toward
`received`. -/
def decodeCounted (max received : Nat) (s : DecodeState) (b : List Nat) :
    Nat × DecodeState × List Nat × DecodeResult :=
  (received + (b.length - (decode max s b).2.1.length),
   (decode max s b).1, (decode max s b).2.1, (decode max s b).2.2)

/-- Modelled from the spec: every byte written by the encoder counts
toward `sent`. -/
def encodeCounted (sent : Nat) (item : StatusCode) (dst : List Nat) :
    Nat × List Nat :=
  (sent + ((encode item dst).length - dst.length), encode item dst)

/-- The wire packet of a well-formed request (claim C7's "that request's
packet"): magic, big-endian payload length, big-endian request code,
payload. -/
def requestBytes : RequestCode → List Nat
  | .ping => magicBytes ++ [0, 0] ++ [0, 1]
  | .getStats => magicBytes ++ [0, 0] ++ [0, 2]
  | .resetStats => magicBytes ++ [0, 0] ++ [0, 3]
  | .compress p => magicBytes ++ be16 p.length ++ [0, 4] ++ p

/-- The encoder appends exactly `8 + |payload|` bytes. -/
theorem encode_length (item : StatusCode) (dst : List Nat) :
    (encode item dst).length = dst.length + 8 + (wirePayload item).length := by
  cases item <;> simp [encode, putU16, wirePayload, magicBytes] <;> omega

/-- A well-formed request packet decodes, from the initial state, to its
request, consuming the packet entirely. -/
theorem decode_requestBytes {max : Nat} (r : RequestCode)
    (hp : ∀ p, r = .compress p →
      1 ≤ p.length ∧ p.length ≤ max ∧ p.length < 65536) :
    decode max .magicHeader (requestBytes r) = (.magicHeader, [], .item r) := by
  cases r with
  | ping =>
    rw [requestBytes,
      decode_step_more (show decodeStep max .magicHeader _
        = .more .payloadLen [0, 0, 0, 1] by simp [decodeStep, magicBytes]),
      decode_step_more (show decodeStep max .payloadLen _
        = .more (.requestCode 0) [0, 1] by simp [decodeStep]),
      decode_step_done (show decodeStep max (.requestCode 0) _
        = .done .magicHeader [] (.item .ping) by simp [decodeStep])]
  | getStats =>
    rw [requestBytes,
      decode_step_more (show decodeStep max .magicHeader _
        = .more .payloadLen [0, 0, 0, 2] by simp [decodeStep, magicBytes]),
      decode_step_more (show decodeStep max .payloadLen _
        = .more (.requestCode 0) [0, 2] by simp [decodeStep]),
      decode_step_done (show decodeStep max (.requestCode 0) _
        = .done .magicHeader [] (.item .getStats) by simp [decodeStep])]
  | resetStats =>
    rw [requestBytes,
      decode_step_more (show decodeStep max .magicHeader _
        = .more .payloadLen [0, 0, 0, 3] by simp [decodeStep, magicBytes]),
      decode_step_more (show decodeStep max .payloadLen _
        = .more (.requestCode 0) [0, 3] by simp [decodeStep]),
      decode_step_done (show decodeStep max (.requestCode 0) _
        = .done .magicHeader [] (.item .resetStats) by simp [decodeStep])]
  | compress p =>
    obtain ⟨hp1, hp2, hp3⟩ := hp p rfl
    rw [requestBytes]
    rw [decode_step_more (show decodeStep max .magicHeader
        (magicBytes ++ be16 p.length ++ [0, 4] ++ p)
        = .more .payloadLen (be16 p.length ++ [0, 4] ++ p) by
      simp [decodeStep, magicBytes, be16])]
    have hval : p.length / 256 * 256 + p.length % 256 = p.length := by omega
    rw [decode_step_more (show decodeStep max .payloadLen
        (be16 p.length ++ [0, 4] ++ p)
        = .more (.requestCode p.length) ([0, 4] ++ p) by
      simp only [be16, List.cons_append, List.nil_append, decodeStep, hval]
      rw [if_neg (by omega)])]
    rw [decode_step_more (show decodeStep max (.requestCode p.length)
        ([0, 4] ++ p) = .more (.payload p.length) p by
      simp [decodeStep, show p.length ≠ 0 by omega])]
    rw [decode_step_done (show decodeStep max (.payload p.length) p
        = .done .magicHeader [] (.item (.compress p)) by
      simp [decodeStep])]

/-- C7: the codec's `received`/`sent` counters (modelled from the spec, as
the counter code is absent from `src/packet.rs` although `src/main.rs`
calls it): every byte consumed by the decoder — including bytes discarded
during resynchronization — increments `received` and the decoder never
grows the buffer; every byte written by the encoder increments `sent`;
after a successful request, `received` has grown by exactly the byte
length of that request's packet, and `sent` grows by exactly the byte
length of its response, `8 + |payload|`. -/
theorem c7_counter_accounting (max received sent : Nat) :
    (∀ (s : DecodeState) (b : List Nat),
        (decode max s b).2.1.length ≤ b.length
      ∧ (decodeCounted max received s b).1
          = received + (b.length - (decode max s b).2.1.length))
  ∧ (∀ r : RequestCode,
      (∀ p, r = .compress p →
        1 ≤ p.length ∧ p.length ≤ max ∧ p.length < 65536) →
      decodeCounted max received .magicHeader (requestBytes r)
        = (received + (requestBytes r).length, .magicHeader, [], .item r))
  ∧ (∀ (item : StatusCode) (dst : List Nat),
      (encodeCounted sent item dst).1
        = sent + (8 + (wirePayload item).length)) := by
  refine ⟨?_, ?_, ?_⟩
  · intro s b
    exact ⟨decode_length_le s b, rfl⟩
  · intro r hr
    have hd := decode_requestBytes r hr
    simp [decodeCounted, hd]
  · intro item dst
    simp [encodeCounted, encode_length]
    omega

/-- Witness for C7: a 9-byte compress request packet grows `received` by
9; its `Ok` response with 1 payload byte grows `sent` by 9. -/
theorem c7_counter_accounting_witness :
    decodeCounted 16384 0 .magicHeader (requestBytes (.compress [97]))
      = (9, .magicHeader, [], .item (.compress [97]))
  ∧ (encodeCounted 0 (.ok [97]) []).1 = 9 := by
  have h := c7_counter_accounting 16384 0 0
  constructor
  · have h2 := h.2.1 (.compress [97])
      (by intro p hp; cases hp; norm_num)
    simpa [requestBytes, be16, magicBytes] using h2
  · have h3 := h.2.2 (.ok [97]) []
    simpa using h3

end Stry
